import Mathlib

/-!
Verification of the command-palette widget in `src/components/pallette.tsx`
(kaito-http/pallette). The component state (query predicate, selection,
derived filtered list) and the handlers (`filteredItems`, `moveFocus`,
`acceptCommand`, the selection-reset effect, the scroll-lock effect and
`useOutsideClick`) are shallowly embedded as pure Lean functions; the
reactive wiring (a state update followed by memo recomputation and the
selection effect) is modelled as explicit function composition per render
cycle, and reachable states as folds over operation lists.
-/

namespace Pallette

/-- A caller-supplied command item: `{key: string, name: string}`
(`src/components/commandItem`, as consumed by `pallette.tsx`). -/
structure CommandItem where
  key : String
  name : String
deriving DecidableEq, Repr

/-- `listStartsWith hay needle` : the list `needle` occurs at the head of
`hay` (helper for the JS `String.prototype.includes` model). -/
def listStartsWith : List Char → List Char → Bool
  | _, [] => true
  | [], _ :: _ => false
  | a :: as, b :: bs => a == b && listStartsWith as bs

/-- `listContainsSub hay needle` : `needle` occurs contiguously inside
`hay` (model of JS `String.prototype.includes` on the character lists). -/
def listContainsSub : List Char → List Char → Bool
  | [], needle => needle.isEmpty
  | h :: t, needle => listStartsWith (h :: t) needle || listContainsSub t needle

/-- Model of JS `String.prototype.toLowerCase` : lower-case every character. -/
def lowerStr (s : String) : String := ⟨s.data.map Char.toLower⟩

/-- Model of JS `s.includes(sub)` : contiguous substring test. -/
def strIncludes (s sub : String) : Bool := listContainsSub s.data sub.data

/-- `filteredItems` memo, `pallette.tsx` lines 64-70:
if the predicate is empty return `items`, else keep the items whose
lower-cased name includes the lower-cased predicate. -/
def filteredItems (items : List CommandItem) (predicate : String) : List CommandItem :=
  if predicate.length ≤ 0 then items
  else items.filter (fun item => strIncludes (lowerStr item.name) (lowerStr predicate))

/-- Spec-side predicate: the item name contains the query as a
case-insensitive substring ("whose name contains Query as a
case-insensitive substring"). -/
def nameMatchesCI (item : CommandItem) (q : String) : Bool :=
  listContainsSub (item.name.data.map Char.toLower) (q.data.map Char.toLower)

theorem strIncludes_lower_eq_nameMatchesCI (item : CommandItem) (q : String) :
    strIncludes (lowerStr item.name) (lowerStr q) = nameMatchesCI item q := rfl

theorem string_length_eq_data_length (s : String) : s.length = s.data.length := rfl

theorem string_eq_empty_iff_data (s : String) : s = "" ↔ s.data = [] := by
  cases s with
  | mk data =>
    constructor
    · intro h
      have h2 := congrArg String.data h
      simpa using h2
    · intro h
      simp only at h
      subst h
      rfl

theorem lowerStr_data (s : String) : (lowerStr s).data = s.data.map Char.toLower := rfl

/-- C1: for every item list `L` and query `q`, the filtered list is `L`
itself when `q` is empty, and otherwise is exactly the order-preserving
subsequence (`List.filter`) of the items whose name contains `q` as a
case-insensitive substring; moreover the result depends on the query only
through its lower-cased form, so filtering is case-insensitive. -/
theorem filteredItems_spec (L : List CommandItem) (q : String) :
    (q = "" → filteredItems L q = L) ∧
    (q ≠ "" → filteredItems L q = L.filter (fun item => nameMatchesCI item q)) ∧
    (∀ q2 : String, lowerStr q = lowerStr q2 → filteredItems L q = filteredItems L q2) := by
  refine ⟨?_, ?_, ?_⟩
  · intro h; rw [h]; rfl
  · intro h
    have hlen : ¬ q.length ≤ 0 := by
      intro hle
      apply h
      have hz : q.data.length = 0 := Nat.le_zero.mp hle
      exact (string_eq_empty_iff_data q).mpr (List.length_eq_zero.mp hz)
    simp only [filteredItems, if_neg hlen]
    rfl
  · intro q2 hq
    have hdata : q.data.map Char.toLower = q2.data.map Char.toLower := by
      have := congrArg String.data hq
      simpa [lowerStr_data] using this
    have hlen : q.data.length = q2.data.length := by
      have := congrArg List.length hdata
      simpa using this
    by_cases hz : q.data.length = 0
    · have hz2 : q2.data.length = 0 := by omega
      simp only [filteredItems, string_length_eq_data_length, hz, hz2]
      simp
    · have hz2 : ¬ q2.data.length ≤ 0 := by omega
      have hz1 : ¬ q.data.length ≤ 0 := by omega
      simp only [filteredItems, string_length_eq_data_length, if_neg hz1, if_neg hz2]
      congr 1
      funext item
      simp only [strIncludes, lowerStr_data, hdata]

/-- C1 instance from the spec: `FilteredItems(L, "ABC") = FilteredItems(L, "abc")`
on a concrete list, via the case-insensitivity conjunct. -/
theorem filteredItems_spec_witness :
    ("Open" ≠ "" ∧
      filteredItems [⟨"a", "Open File"⟩] "Open" =
        List.filter (fun item => nameMatchesCI item "Open") [⟨"a", "Open File"⟩]) ∧
    filteredItems [⟨"a", "ABCx"⟩, ⟨"b", "zzz"⟩] "ABC" =
      filteredItems [⟨"a", "ABCx"⟩, ⟨"b", "zzz"⟩] "abc" := by
  refine ⟨⟨by decide, (filteredItems_spec [⟨"a", "Open File"⟩] "Open").2.1 (by decide)⟩, ?_⟩
  exact (filteredItems_spec [⟨"a", "ABCx"⟩, ⟨"b", "zzz"⟩] "ABC").2.2 "abc" (by decide)

/-- Lookup in the `itemMap` memo (`pallette.tsx` lines 57-62): the
`items.reduce` stores every item under its key, later ones overwriting
earlier ones, so a lookup returns the last item carrying that key, or
nothing when no item does. -/
def itemMapLookup (items : List CommandItem) (k : String) : Option CommandItem :=
  items.foldl (fun acc item => if item.key == k then some item else acc) none

/-- `acceptCommand` (lines 75-81): with no selection it does nothing; with
a selection it reads `itemMap[selected]` and reports `command.name` via
`alert`. When the lookup misses, `command` is `undefined` and reading
`command.name` throws, modelled as `Except.error ()`. -/
def acceptCommand (items : List CommandItem) (selected : Option String) :
    Except Unit (Option CommandItem) :=
  match selected with
  | none => Except.ok none
  | some k =>
    match itemMapLookup items k with
    | some command => Except.ok (some command)
    | none => Except.error ()

/-- JS `Array.prototype.indexOf` on the item array: index of the first
occurrence, `-1` when absent. -/
def jsIndexOfItem : List CommandItem → CommandItem → Int
  | [], _ => -1
  | h :: t, x =>
    if h = x then 0
    else if jsIndexOfItem t x = -1 then -1 else jsIndexOfItem t x + 1

/-- `filteredItems.indexOf(itemMap[selected])` : when the map lookup is
`undefined`, `indexOf` returns `-1`. -/
def jsIndexOf (l : List CommandItem) (x : Option CommandItem) : Int :=
  match x with
  | none => -1
  | some item => jsIndexOfItem l item

/-- JS array subscript with an `Int` index: negative or out-of-range reads
give `undefined`. -/
def jsGet (l : List CommandItem) (i : Int) : Option CommandItem :=
  if 0 ≤ i then l.get? i.toNat else none

/-- `moveFocus` handler (lines 99-122), as a function from the component
state and the pressed key to the new `selected` value. `selectedIndex` is
`0` for an undefined selection and otherwise
`filteredItems.indexOf(itemMap[selected])`, which is `-1` when the lookup
misses or the item is not in the filtered list. The JS `%` agrees with
`Int.emod` here because `selectedIndex + 1` is never negative. -/
def moveFocus (items : List CommandItem) (predicate : String) (selected : Option String)
    (key : String) : Option String :=
  let fi := filteredItems items predicate
  if fi.length ≤ 0 then selected
  else
    let selectedIndex : Int :=
      match selected with
      | some k => jsIndexOf fi (itemMapLookup items k)
      | none => 0
    if key = "ArrowDown" then
      (jsGet fi ((selectedIndex + 1) % (fi.length : Int))).map CommandItem.key
    else if key = "ArrowUp" then
      match (jsGet fi (selectedIndex - 1)).map CommandItem.key with
      | some k => some k
      | none => (jsGet fi ((fi.length : Int) - 1)).map CommandItem.key
    else selected

/-- The mutable state of one mounted `CommandContainer` (lines 53-55)
together with the `items` prop it currently receives. -/
structure PState where
  items : List CommandItem
  predicate : String
  selected : Option String
deriving DecidableEq, Repr

/-- The selection-reset effect (lines 95-97): whenever `filteredItems` or
`items` changes, `selected` becomes `filteredItems[0]?.key`. -/
def recomputeSelection (s : PState) : PState :=
  { s with selected := (filteredItems s.items s.predicate).head?.map CommandItem.key }

/-- `setPredicate` through one render cycle: a genuinely new predicate
makes the `filteredItems` memo produce a fresh array, so the reset effect
(lines 95-97) runs afterwards; an update to the identical value is dropped
by the framework and nothing happens. -/
def setQuery (q : String) (s : PState) : PState :=
  if q = s.predicate then s else recomputeSelection { s with predicate := q }

/-- A new `items` prop through one render cycle: the state hooks keep
their values, while the memo and the reset effect recompute. -/
def setItems (l : List CommandItem) (s : PState) : PState :=
  if l = s.items then s else recomputeSelection { s with items := l }

/-- An arrow-key press routed through `moveFocus`. -/
def moveSelection (key : String) (s : PState) : PState :=
  { s with selected := moveFocus s.items s.predicate s.selected key }

/-- `acceptCommand` reads `selected` and `itemMap` but performs no state
update. -/
def acceptSelection (s : PState) : Except Unit (Option CommandItem) :=
  acceptCommand s.items s.selected

/-- Mount state of `CommandContainer` (lines 53-55): empty predicate and
`selected = items[0]?.key`; the mount-time run of the reset effect writes
the same value again. -/
def initState (items : List CommandItem) : PState :=
  { items := items, predicate := "", selected := items.head?.map CommandItem.key }

/-- The operations of the open palette that the spec names. -/
inductive Op where
  | setQuery (q : String)
  | moveSelection (key : String)
  | recomputeSelection
  | acceptSelection
deriving DecidableEq, Repr

def applyOp (s : PState) : Op → PState
  | Op.setQuery q => setQuery q s
  | Op.moveSelection k => moveSelection k s
  | Op.recomputeSelection => recomputeSelection s
  | Op.acceptSelection => s

/-- The state reached from the initial open state by a sequence of
operations. -/
def run (items : List CommandItem) (ops : List Op) : PState :=
  ops.foldl applyOp (initState items)

theorem filteredItems_empty (items : List CommandItem) : filteredItems items "" = items := rfl

theorem mem_of_jsGet {fi : List CommandItem} {i : Int} {item : CommandItem}
    (h : jsGet fi i = some item) : item ∈ fi := by
  unfold jsGet at h
  split at h
  · exact List.get?_mem h
  · exact absurd h (by simp)

theorem jsGet_key_mem {fi : List CommandItem} {i : Int} {k : String}
    (h : (jsGet fi i).map CommandItem.key = some k) : ∃ item ∈ fi, item.key = k := by
  rcases Option.map_eq_some'.mp h with ⟨item, hget, hkey⟩
  exact ⟨item, mem_of_jsGet hget, hkey⟩

theorem head?_key_mem {l : List CommandItem} {k : String}
    (h : l.head?.map CommandItem.key = some k) : ∃ item ∈ l, item.key = k := by
  cases l with
  | nil => simp [List.head?] at h
  | cons a t =>
    refine ⟨a, List.mem_cons_self a t, ?_⟩
    simpa [List.head?] using h

/-- The spec invariant on one state: a present selection is the key of
some element of the current filtered list. -/
def selectedInFiltered (s : PState) : Prop :=
  ∀ k, s.selected = some k → ∃ item ∈ filteredItems s.items s.predicate, item.key = k

theorem selectedInFiltered_recompute (s : PState) :
    selectedInFiltered (recomputeSelection s) := by
  intro k hk
  simp only [recomputeSelection] at hk ⊢
  exact head?_key_mem hk

theorem selectedInFiltered_move (s : PState) (key : String)
    (h : selectedInFiltered s) : selectedInFiltered (moveSelection key s) := by
  intro k hk
  simp only [moveSelection] at hk ⊢
  have hk2 : moveFocus s.items s.predicate s.selected key = some k := hk
  unfold moveFocus at hk2
  dsimp only at hk2
  split at hk2
  · exact h k hk2
  · split at hk2
    · exact jsGet_key_mem hk2
    · split at hk2
      · split at hk2
        · next k' heq =>
          have hkk : k' = k := Option.some.inj hk2
          subst hkk
          exact jsGet_key_mem heq
        · exact jsGet_key_mem hk2
      · exact h k hk2

theorem selectedInFiltered_applyOp (s : PState) (op : Op)
    (h : selectedInFiltered s) : selectedInFiltered (applyOp s op) := by
  cases op with
  | setQuery q =>
    simp only [applyOp, setQuery]
    split
    · exact h
    · exact selectedInFiltered_recompute _
  | moveSelection k => exact selectedInFiltered_move s k h
  | recomputeSelection => exact selectedInFiltered_recompute s
  | acceptSelection => exact h

theorem selectedInFiltered_init (items : List CommandItem) :
    selectedInFiltered (initState items) := by
  intro k hk
  simp only [initState] at hk ⊢
  rw [filteredItems_empty]
  exact head?_key_mem hk

theorem selectedInFiltered_foldl (ops : List Op) (s : PState)
    (h : selectedInFiltered s) : selectedInFiltered (ops.foldl applyOp s) := by
  induction ops generalizing s with
  | nil => exact h
  | cons op rest ih => exact ih (applyOp s op) (selectedInFiltered_applyOp s op h)

theorem selInv_run (items : List CommandItem) (ops : List Op) :
    selectedInFiltered (run items ops) :=
  selectedInFiltered_foldl ops (initState items) (selectedInFiltered_init items)

theorem applyOp_items (s : PState) (op : Op) : (applyOp s op).items = s.items := by
  cases op with
  | setQuery q =>
    simp only [applyOp, setQuery]
    split
    · rfl
    · rfl
  | moveSelection k => rfl
  | recomputeSelection => rfl
  | acceptSelection => rfl

theorem foldl_items (ops : List Op) (s : PState) : (ops.foldl applyOp s).items = s.items := by
  induction ops generalizing s with
  | nil => rfl
  | cons op rest ih => rw [List.foldl_cons, ih, applyOp_items]

theorem run_items (items : List CommandItem) (ops : List Op) :
    (run items ops).items = items :=
  foldl_items ops (initState items)

/-- C4: in every state reachable from the initial open state by any
sequence of setQuery, moveSelection, recomputeSelection and
acceptSelection operations, a present Selection is the key of some element
of the current filtered list; it is never a stale key. -/
theorem run_selected_in_filtered (items : List CommandItem) (ops : List Op) (k : String)
    (h : (run items ops).selected = some k) :
    ∃ item ∈ filteredItems (run items ops).items (run items ops).predicate, item.key = k :=
  selInv_run items ops k h

/-- C4 witness: a concrete reachable state (one filtering step and one
arrow key) whose selection key is realised in the filtered list. -/
theorem run_selected_in_filtered_witness :
    (run [⟨"a", "Open File"⟩, ⟨"b", "Open Folder"⟩]
        [Op.setQuery "open", Op.moveSelection "ArrowDown"]).selected = some "b" ∧
    ∃ item ∈ filteredItems
        (run [⟨"a", "Open File"⟩, ⟨"b", "Open Folder"⟩]
          [Op.setQuery "open", Op.moveSelection "ArrowDown"]).items
        (run [⟨"a", "Open File"⟩, ⟨"b", "Open Folder"⟩]
          [Op.setQuery "open", Op.moveSelection "ArrowDown"]).predicate,
      item.key = "b" :=
  ⟨by decide,
    run_selected_in_filtered [⟨"a", "Open File"⟩, ⟨"b", "Open Folder"⟩]
      [Op.setQuery "open", Op.moveSelection "ArrowDown"] "b" (by decide)⟩

theorem itemMapFoldl_spec (k : String) (l : List CommandItem) (acc : Option CommandItem)
    (hacc : ∀ a, acc = some a → a.key = k) (it : CommandItem)
    (h : l.foldl (fun acc item => if item.key == k then some item else acc) acc = some it) :
    it.key = k ∧ (acc = some it ∨ it ∈ l) := by
  induction l generalizing acc with
  | nil =>
    simp only [List.foldl_nil] at h
    exact ⟨hacc it h, Or.inl h⟩
  | cons a t ih =>
    simp only [List.foldl_cons] at h
    by_cases hkey : a.key == k
    · rw [if_pos hkey] at h
      have hacc2 : ∀ b, some a = some b → b.key = k := by
        intro b hb
        have hba : b = a := (Option.some.inj hb).symm
        subst hba
        exact eq_of_beq hkey
      rcases ih (some a) hacc2 h with ⟨h1, h2⟩
      refine ⟨h1, Or.inr ?_⟩
      rcases h2 with h2 | h2
      · have hia : a = it := Option.some.inj h2
        subst hia
        exact List.mem_cons_self a t
      · exact List.mem_cons_of_mem a h2
    · rw [if_neg hkey] at h
      rcases ih acc hacc h with ⟨h1, h2⟩
      refine ⟨h1, ?_⟩
      rcases h2 with h2 | h2
      · exact Or.inl h2
      · exact Or.inr (List.mem_cons_of_mem a h2)

theorem itemMapLookup_props {items : List CommandItem} {k : String} {it : CommandItem}
    (h : itemMapLookup items k = some it) : it.key = k ∧ it ∈ items := by
  rcases itemMapFoldl_spec k items none (by intro a ha; cases ha) it h with ⟨h1, h2⟩
  rcases h2 with h2 | h2
  · cases h2
  · exact ⟨h1, h2⟩

theorem itemMapFoldl_isSome (k : String) (l : List CommandItem) (acc : Option CommandItem)
    (h : (∃ item ∈ l, item.key = k) ∨ acc.isSome) :
    (l.foldl (fun acc item => if item.key == k then some item else acc) acc).isSome := by
  induction l generalizing acc with
  | nil =>
    simp only [List.foldl_nil]
    rcases h with h | h
    · simp at h
    · exact h
  | cons a t ih =>
    simp only [List.foldl_cons]
    by_cases hkey : a.key == k
    · rw [if_pos hkey]
      exact ih (some a) (Or.inr rfl)
    · rw [if_neg hkey]
      apply ih acc
      rcases h with h | h
      · rcases h with ⟨item, hmem, hik⟩
        rcases List.mem_cons.mp hmem with rfl | hmem2
        · exact absurd (beq_iff_eq.mpr hik) hkey
        · exact Or.inl ⟨item, hmem2, hik⟩
      · exact Or.inr h

theorem itemMapLookup_isSome {items : List CommandItem} {k : String}
    (h : ∃ item ∈ items, item.key = k) : (itemMapLookup items k).isSome :=
  itemMapFoldl_isSome k items none (Or.inl h)

theorem mem_items_of_mem_filtered {items : List CommandItem} {p : String} {item : CommandItem}
    (h : item ∈ filteredItems items p) : item ∈ items := by
  unfold filteredItems at h
  split at h
  · exact h
  · exact List.mem_of_mem_filter h

/-- C7: on every reachable state, acceptCommand reports an item exactly
when a selection is present — and the reported item carries the selected
key and comes from the supplied list — while an absent selection (for
example after a query matching nothing) gives a silent no-op, never a
thrown error. -/
theorem acceptSelection_spec (items : List CommandItem) (ops : List Op) :
    ((run items ops).selected = none → acceptSelection (run items ops) = Except.ok none) ∧
    (∀ k, (run items ops).selected = some k →
      ∃ item, acceptSelection (run items ops) = Except.ok (some item) ∧
        item.key = k ∧ item ∈ items) := by
  constructor
  · intro h
    simp only [acceptSelection, acceptCommand, h]
  · intro k hk
    rcases selInv_run items ops k hk with ⟨item, hmem, hkey⟩
    have hmemitems : item ∈ (run items ops).items := mem_items_of_mem_filtered hmem
    have hsome : (itemMapLookup (run items ops).items k).isSome :=
      itemMapLookup_isSome ⟨item, hmemitems, hkey⟩
    rcases Option.isSome_iff_exists.mp hsome with ⟨it2, hit2⟩
    have hprops := itemMapLookup_props hit2
    refine ⟨it2, ?_, hprops.1, ?_⟩
    · simp only [acceptSelection, acceptCommand, hk, hit2]
    · rw [← run_items items ops]
      exact hprops.2

/-- C7 witness: with one item, the empty run reports that item; after a
query matching nothing, the selection is absent and accepting is a no-op. -/
theorem acceptSelection_spec_witness :
    (run [(⟨"a", "Open File"⟩ : CommandItem)] [Op.setQuery "xyz"]).selected = none ∧
    acceptSelection (run [(⟨"a", "Open File"⟩ : CommandItem)] [Op.setQuery "xyz"]) =
      Except.ok none ∧
    ∃ item, acceptSelection (run [(⟨"a", "Open File"⟩ : CommandItem)] []) =
        Except.ok (some item) ∧ item.key = "a" ∧ item ∈ [(⟨"a", "Open File"⟩ : CommandItem)] :=
  ⟨by decide,
    (acceptSelection_spec [(⟨"a", "Open File"⟩ : CommandItem)] [Op.setQuery "xyz"]).1 (by decide),
    (acceptSelection_spec [(⟨"a", "Open File"⟩ : CommandItem)] []).2 "a" (by decide)⟩

/-- C9: under unique keys, in every reachable state a present selection is
the key of some element of the caller-supplied item list, so the
`itemMap[selected]` resolution inside acceptCommand finds a defined item
and never performs a missing-key access. -/
theorem run_selection_resolves (items : List CommandItem) (ops : List Op) (k : String)
    (hnd : (items.map CommandItem.key).Nodup)
    (h : (run items ops).selected = some k) :
    (∃ item ∈ items, item.key = k) ∧
    ∃ it, itemMapLookup items k = some it ∧ it.key = k := by
  rcases selInv_run items ops k h with ⟨item, hmem, hkey⟩
  have hmemitems : item ∈ items := by
    have h2 := mem_items_of_mem_filtered hmem
    rwa [run_items] at h2
  have hsome := itemMapLookup_isSome ⟨item, hmemitems, hkey⟩
  rcases Option.isSome_iff_exists.mp hsome with ⟨it2, hit2⟩
  exact ⟨⟨item, hmemitems, hkey⟩, it2, hit2, (itemMapLookup_props hit2).1⟩

/-- C9 witness: a singleton list with a unique key, where the initial
selection resolves through the item map. -/
theorem run_selection_resolves_witness :
    ([(⟨"a", "Open File"⟩ : CommandItem)].map CommandItem.key).Nodup ∧
    (run [(⟨"a", "Open File"⟩ : CommandItem)] []).selected = some "a" ∧
    ((∃ item ∈ [(⟨"a", "Open File"⟩ : CommandItem)], item.key = "a") ∧
      ∃ it, itemMapLookup [(⟨"a", "Open File"⟩ : CommandItem)] "a" = some it ∧ it.key = "a") :=
  ⟨by decide, by decide,
    run_selection_resolves [(⟨"a", "Open File"⟩ : CommandItem)] [] "a" (by decide) (by decide)⟩

/-- C3: whenever the filtered list changes — a query change, or an items
change, either one not dropped as identical by the framework — the
selection becomes the key of the first element of the new filtered list
(absent when it is empty), whatever the prior selection was, even when the
prior key is still present in the new filtered list. -/
theorem selection_reset_on_change (s : PState) (q : String) (l : List CommandItem)
    (sel2 : Option String) (hq : q ≠ s.predicate) (hl : l ≠ s.items) :
    (setQuery q s).selected = (filteredItems s.items q).head?.map CommandItem.key ∧
    (setItems l s).selected = (filteredItems l s.predicate).head?.map CommandItem.key ∧
    (setQuery q { s with selected := sel2 }).selected = (setQuery q s).selected ∧
    (setItems l { s with selected := sel2 }).selected = (setItems l s).selected := by
  refine ⟨?_, ?_, ?_, ?_⟩
  · simp only [setQuery, if_neg hq, recomputeSelection]
  · simp only [setItems, if_neg hl, recomputeSelection]
  · simp only [setQuery, recomputeSelection]
    rw [if_neg hq, if_neg hq]
  · simp only [setItems, recomputeSelection]
    rw [if_neg hl, if_neg hl]

/-- C3 witness: a query change and an items change on a concrete state,
with two different prior selections giving the same new selection. -/
theorem selection_reset_on_change_witness :
    ("save" ≠ "open" ∧ [(⟨"d", "Quit"⟩ : CommandItem)] ≠ [(⟨"a", "Open File"⟩ : CommandItem)]) ∧
    ((setQuery "save" ⟨[⟨"a", "Open File"⟩], "open", some "a"⟩).selected =
        (filteredItems [⟨"a", "Open File"⟩] "save").head?.map CommandItem.key ∧
      (setItems [⟨"d", "Quit"⟩] ⟨[⟨"a", "Open File"⟩], "open", some "a"⟩).selected =
        (filteredItems [⟨"d", "Quit"⟩] "open").head?.map CommandItem.key ∧
      (setQuery "save" ⟨[⟨"a", "Open File"⟩], "open", some "z"⟩).selected =
        (setQuery "save" ⟨[⟨"a", "Open File"⟩], "open", some "a"⟩).selected ∧
      (setItems [⟨"d", "Quit"⟩] ⟨[⟨"a", "Open File"⟩], "open", some "z"⟩).selected =
        (setItems [⟨"d", "Quit"⟩] ⟨[⟨"a", "Open File"⟩], "open", some "a"⟩).selected) :=
  ⟨⟨by decide, by decide⟩,
    selection_reset_on_change ⟨[⟨"a", "Open File"⟩], "open", some "a"⟩ "save"
      [⟨"d", "Quit"⟩] (some "z") (by decide) (by decide)⟩

/-- C5 counterexample: changing the item list leaves the non-empty query
in place; the query state hook is not reset to the empty string. -/
theorem setItems_query_not_reset_cex :
    (setItems [(⟨"b", "Save"⟩ : CommandItem)]
        ⟨[⟨"a", "Open File"⟩], "open", some "a"⟩).predicate = "open" ∧
    ("open" : String) ≠ "" := by decide

/-- C5 (amended): when the caller-provided item list changes, the query
string is left unchanged — only the selection is recomputed — rather than
being reset to the empty string. -/
theorem setItems_preserves_predicate (l : List CommandItem) (s : PState) :
    (setItems l s).predicate = s.predicate := by
  unfold setItems
  split
  · rfl
  · rfl

/-- The state of the host document and the outer `Palette` component:
whether it is mounted, its `open` state hook (line 8, called `shown` here
because `open` is reserved), and `document.body.style.overflowY`. -/
structure PaletteState where
  mounted : Bool
  shown : Bool
  overflowY : String
deriving DecidableEq, Repr

/-- The scroll-lock effect (lines 21-23): runs after mount and after every
change of the `open` state, writing `hidden` or `auto`; it registers no
cleanup. -/
def overflowEffect (s : PaletteState) : PaletteState :=
  { s with overflowY := if s.shown then "hidden" else "auto" }

/-- Events of the outer component: the hotkey toggle (lines 10-19); the
close callback reached from escape, an outside click or an explicit close,
all `setOpen(false)` (lines 45-47, 72, 83-85); the enter key running
`acceptCommand`, which performs no state update (lines 75-81, 87-89); and
host mount and host unmount. Unmounting removes the component without
re-running the scroll-lock effect, since that effect returned no cleanup. -/
inductive PEvent where
  | mount
  | hotkeyToggle
  | closeCallback
  | acceptKey
  | unmountHost
deriving DecidableEq, Repr

def paletteStep (s : PaletteState) : PEvent → PaletteState
  | PEvent.mount =>
    if s.mounted then s
    else overflowEffect { s with mounted := true, shown := false }
  | PEvent.hotkeyToggle =>
    if s.mounted then overflowEffect { s with shown := !s.shown } else s
  | PEvent.closeCallback =>
    if s.mounted && s.shown then overflowEffect { s with shown := false } else s
  | PEvent.acceptKey => s
  | PEvent.unmountHost =>
    if s.mounted then { s with mounted := false } else s

/-- A host document before the component is mounted. -/
def initialDoc : PaletteState :=
  { mounted := false, shown := false, overflowY := "auto" }

def runPalette (events : List PEvent) : PaletteState :=
  events.foldl paletteStep initialDoc

/-- While the component is mounted, the document overflow tracks the
`open` state. -/
def overflowInv (s : PaletteState) : Prop :=
  s.mounted = true → s.overflowY = (if s.shown then "hidden" else "auto")

theorem overflowInv_step (s : PaletteState) (e : PEvent) (h : overflowInv s) :
    overflowInv (paletteStep s e) := by
  cases e with
  | mount =>
    simp only [paletteStep]
    split
    · exact h
    · intro _; rfl
  | hotkeyToggle =>
    simp only [paletteStep]
    split
    · intro _; rfl
    · exact h
  | closeCallback =>
    simp only [paletteStep]
    split
    · intro _; rfl
    · exact h
  | acceptKey => exact h
  | unmountHost =>
    simp only [paletteStep]
    split
    · intro hm; simp at hm
    · exact h

theorem overflowInv_run (events : List PEvent) : overflowInv (runPalette events) := by
  have hall : ∀ (evs : List PEvent) (s : PaletteState),
      overflowInv s → overflowInv (evs.foldl paletteStep s) := by
    intro evs
    induction evs with
    | nil => intro s h; exact h
    | cons e rest ih => intro s h; exact ih (paletteStep s e) (overflowInv_step s e h)
  exact hall events initialDoc (fun h => absurd h (by decide))

/-- C6 counterexample: open the palette and unmount the host; the
component is gone while `overflowY` is still `hidden` — the scroll-lock
effect has no cleanup, so the host-unmount exit path does not release the
lock. -/
theorem scrollLock_unmount_leak :
    (runPalette [PEvent.mount, PEvent.hotkeyToggle, PEvent.unmountHost]).mounted = false ∧
    (runPalette [PEvent.mount, PEvent.hotkeyToggle, PEvent.unmountHost]).overflowY =
      "hidden" := by decide

/-- C6 (amended): every exit path that runs the close callback — explicit
close, outside click, escape — releases the scroll lock: in every
reachable state where the component is mounted and not shown, the document
overflow is `auto`; the host-unmount path, however, does not release it. -/
theorem scrollLock_released_on_close (events : List PEvent)
    (h1 : (runPalette events).mounted = true) (h2 : (runPalette events).shown = false) :
    (runPalette events).overflowY = "auto" := by
  have h := overflowInv_run events h1
  rw [h2] at h
  simpa using h

/-- C6 witness: open then close via the callback; the lock is released. -/
theorem scrollLock_released_on_close_witness :
    (runPalette [PEvent.mount, PEvent.hotkeyToggle, PEvent.closeCallback]).mounted = true ∧
    (runPalette [PEvent.mount, PEvent.hotkeyToggle, PEvent.closeCallback]).shown = false ∧
    (runPalette [PEvent.mount, PEvent.hotkeyToggle, PEvent.closeCallback]).overflowY = "auto" :=
  ⟨by decide, by decide,
    scrollLock_released_on_close [PEvent.mount, PEvent.hotkeyToggle, PEvent.closeCallback]
      (by decide) (by decide)⟩

/-- C10: accepting the selection changes no state: appending an
acceptSelection operation to any run leaves the container state (query,
items, hence the filtered list, and the selection) untouched, and
appending the enter-key event to any outer run leaves visibility and the
scroll lock untouched. -/
theorem acceptSelection_frame (items : List CommandItem) (ops : List Op)
    (events : List PEvent) :
    run items (ops ++ [Op.acceptSelection]) = run items ops ∧
    runPalette (events ++ [PEvent.acceptKey]) = runPalette events := by
  constructor
  · simp only [run, List.foldl_append, List.foldl_cons, List.foldl_nil, applyOp]
  · simp only [runPalette, List.foldl_append, List.foldl_cons, List.foldl_nil, paletteStep]

/-- The `useOutsideClick` document handler (lines 221-237) for one click:
with no attached container ref it returns early; otherwise it invokes the
callback exactly when the containment test on the click target fails.
The result counts the callback invocations for that click. -/
def outsideClickInvocations {T : Type} (region : Option (T → Bool)) (target : T) : Nat :=
  match region with
  | none => 0
  | some contains => if contains target then 0 else 1

/-- C8: while the container region is mounted, a click outside it invokes
the close callback exactly once and a click inside it invokes it zero
times. -/
theorem outsideClick_spec {T : Type} (contains : T → Bool) (target : T) :
    (contains target = false → outsideClickInvocations (some contains) target = 1) ∧
    (contains target = true → outsideClickInvocations (some contains) target = 0) := by
  constructor
  · intro h
    simp [outsideClickInvocations, h]
  · intro h
    simp [outsideClickInvocations, h]

/-- C8 witness: a concrete region containing the points below five, an
outside click at seven and an inside click at three. -/
theorem outsideClick_spec_witness :
    outsideClickInvocations (some (fun n : Nat => decide (n < 5))) 7 = 1 ∧
    outsideClickInvocations (some (fun n : Nat => decide (n < 5))) 3 = 0 :=
  ⟨(outsideClick_spec (fun n : Nat => decide (n < 5)) 7).1 (by decide),
    (outsideClick_spec (fun n : Nat => decide (n < 5)) 3).2 (by decide)⟩

/-- The two navigation directions the spec names for moveSelection. -/
inductive Direction where
  | next
  | previous
deriving DecidableEq, Repr

/-- Spec-side index of the Selection within FilteredItems: the first
position whose key is the Selection, and `-1` when no position carries it. -/
def keyIndex (fi : List CommandItem) (k : String) : Int :=
  match fi with
  | [] => -1
  | h :: t =>
    if h.key = k then 0
    else if keyIndex t k = -1 then -1 else keyIndex t k + 1

/-- The amended spec of moveSelection: a no-op on an empty filtered list;
otherwise, with the index of an absent Selection taken as `0`, of a found
Selection as its position, and of a not-found Selection as `-1`, "next"
moves to `(index+1) mod length` and "previous" moves to `index-1`,
wrapping to the last element when that is out of range. -/
def moveSelectionSpec (fi : List CommandItem) (selected : Option String)
    (d : Direction) : Option String :=
  if fi.length = 0 then selected
  else
    let i : Int :=
      match selected with
      | none => 0
      | some k => keyIndex fi k
    match d with
    | Direction.next =>
      (fi.get? ((i + 1) % (fi.length : Int)).toNat).map CommandItem.key
    | Direction.previous =>
      if 1 ≤ i then (fi.get? (i - 1).toNat).map CommandItem.key
      else (fi.get? (fi.length - 1)).map CommandItem.key

/-- C2 counterexample: with filtered list `[a, b]` and the not-found
selection key `z`, the claim predicts "next" moves to the key at index
`(0+1) mod 2 = 1`, that is `b`; `moveFocus` computes `indexOf = -1` and
lands on index `0`, selecting `a` instead. -/
theorem moveFocus_notfound_next_cex :
    moveFocus [⟨"a", "Alpha"⟩, ⟨"b", "Beta"⟩] "" (some "z") "ArrowDown" = some "a" ∧
    some "a" ≠ some ("b" : String) := by decide

theorem keyIndex_ge (fi : List CommandItem) (k : String) : -1 ≤ keyIndex fi k := by
  induction fi with
  | nil => exact le_refl _
  | cons h t ih =>
    simp only [keyIndex]
    split
    · omega
    · split
      · omega
      · omega

theorem keyIndex_lt (fi : List CommandItem) (k : String) :
    keyIndex fi k < (fi.length : Int) := by
  induction fi with
  | nil => simp [keyIndex]
  | cons h t ih =>
    simp only [keyIndex, List.length_cons]
    split
    · push_cast
      omega
    · split
      · push_cast
        omega
      · push_cast
        push_cast at ih
        omega

theorem jsIndexOfItem_eq_keyIndex (fi : List CommandItem) (it : CommandItem) (k : String)
    (hpt : ∀ a ∈ fi, a = it ↔ a.key = k) :
    jsIndexOfItem fi it = keyIndex fi k := by
  induction fi with
  | nil => rfl
  | cons h t ih =>
    have hh := hpt h (List.mem_cons_self h t)
    have ht : ∀ a ∈ t, a = it ↔ a.key = k :=
      fun a ha => hpt a (List.mem_cons_of_mem h ha)
    simp only [jsIndexOfItem, keyIndex]
    by_cases hcase : h.key = k
    · rw [if_pos (hh.mpr hcase), if_pos hcase]
    · rw [if_neg (fun he => hcase (hh.mp he)), if_neg hcase, ih ht]

theorem itemMapLookup_none_no_key {items : List CommandItem} {k : String}
    (h : itemMapLookup items k = none) : ∀ a ∈ items, a.key ≠ k := by
  intro a ha hk
  have h2 := itemMapLookup_isSome ⟨a, ha, hk⟩
  rw [h] at h2
  simp at h2

theorem keyIndex_eq_neg_one {fi : List CommandItem} {k : String}
    (h : ∀ a ∈ fi, a.key ≠ k) : keyIndex fi k = -1 := by
  induction fi with
  | nil => rfl
  | cons a t ih =>
    simp only [keyIndex]
    rw [if_neg (h a (List.mem_cons_self a t)),
      ih (fun b hb => h b (List.mem_cons_of_mem a hb)), if_pos rfl]

/-- With unique keys, the index `moveFocus` computes
(`filteredItems.indexOf(itemMap[selected])`) agrees with the spec-side
first-position-of-the-key index over the filtered list. -/
theorem selectedIndex_eq (items : List CommandItem) (p : String) (k : String)
    (hnd : (items.map CommandItem.key).Nodup) :
    jsIndexOf (filteredItems items p) (itemMapLookup items k) =
      keyIndex (filteredItems items p) k := by
  cases hcase : itemMapLookup items k with
  | none =>
    have hno := itemMapLookup_none_no_key hcase
    simp only [jsIndexOf]
    rw [keyIndex_eq_neg_one (fun a ha => hno a (mem_items_of_mem_filtered ha))]
  | some it =>
    rcases itemMapLookup_props hcase with ⟨hkey, hmem⟩
    simp only [jsIndexOf]
    apply jsIndexOfItem_eq_keyIndex
    intro a ha
    constructor
    · intro he
      subst he
      exact hkey
    · intro hak
      exact List.inj_on_of_nodup_map hnd (mem_items_of_mem_filtered ha) hmem
        (by rw [hak, hkey])

/-- C2 (amended): assuming the unique keys the data model requires, every
key press is a no-op on an empty filtered list; on a non-empty one,
`moveFocus` agrees for both arrow keys with the spec-side moveSelection
whose current index treats an absent Selection as `0`, a found Selection
as its position, and a not-found Selection as `-1` — so "next" from a
not-found Selection lands on the first element (not the second), and
"previous" wraps to the last element exactly when that index is `0` or
`-1`. -/
theorem moveFocus_eq_moveSelectionSpec (items : List CommandItem) (p : String)
    (selected : Option String) (anyKey : String)
    (hnd : (items.map CommandItem.key).Nodup) :
    moveFocus items p selected "ArrowDown" =
      moveSelectionSpec (filteredItems items p) selected Direction.next ∧
    moveFocus items p selected "ArrowUp" =
      moveSelectionSpec (filteredItems items p) selected Direction.previous ∧
    ((filteredItems items p).length = 0 → moveFocus items p selected anyKey = selected) := by
  by_cases hlen : (filteredItems items p).length = 0
  · have hle : (filteredItems items p).length ≤ 0 := Nat.le_of_eq hlen
    refine ⟨?_, ?_, fun _ => ?_⟩
    · unfold moveFocus moveSelectionSpec
      dsimp only
      rw [if_pos hle, if_pos hlen]
    · unfold moveFocus moveSelectionSpec
      dsimp only
      rw [if_pos hle, if_pos hlen]
    · unfold moveFocus
      dsimp only
      rw [if_pos hle]
  · have hle : ¬ (filteredItems items p).length ≤ 0 := by omega
    have hcast : ((filteredItems items p).length : Int) ≠ 0 := by
      exact_mod_cast hlen
    refine ⟨?_, ?_, fun h => absurd h hlen⟩
    · cases selected with
      | none =>
        unfold moveFocus moveSelectionSpec
        dsimp only
        rw [if_neg hle, if_neg hlen, if_pos rfl]
        have h0 : (0 : Int) ≤ (0 + 1) % ((filteredItems items p).length : Int) :=
          Int.emod_nonneg _ hcast
        simp only [jsGet, if_pos h0]
      | some k =>
        unfold moveFocus moveSelectionSpec
        dsimp only
        rw [if_neg hle, if_neg hlen, if_pos rfl, selectedIndex_eq items p k hnd]
        have h0 : (0 : Int) ≤
            (keyIndex (filteredItems items p) k + 1) % ((filteredItems items p).length : Int) :=
          Int.emod_nonneg _ hcast
        simp only [jsGet, if_pos h0]
    · cases selected with
      | none =>
        unfold moveFocus moveSelectionSpec
        dsimp only
        rw [if_neg hle, if_neg hlen, if_neg (by decide : ¬ ("ArrowUp" = "ArrowDown")),
          if_pos rfl]
        split
        · next k' heq =>
          exfalso
          simp [jsGet] at heq
        · next heq =>
          rw [if_neg (by norm_num : ¬ (1 : Int) ≤ 0)]
          have h0 : (0 : Int) ≤ ((filteredItems items p).length : Int) - 1 := by omega
          simp only [jsGet, if_pos h0]
          have htn : ((((filteredItems items p).length : Int)) - 1).toNat =
              (filteredItems items p).length - 1 := by omega
          rw [htn]
      | some k =>
        unfold moveFocus moveSelectionSpec
        dsimp only
        rw [if_neg hle, if_neg hlen, if_neg (by decide : ¬ ("ArrowUp" = "ArrowDown")),
          if_pos rfl, selectedIndex_eq items p k hnd]
        have hlt := keyIndex_lt (filteredItems items p) k
        split
        · next k' heq =>
          by_cases hge : (0 : Int) ≤ keyIndex (filteredItems items p) k - 1
          · rw [if_pos (by omega : (1 : Int) ≤ keyIndex (filteredItems items p) k), ← heq]
            simp only [jsGet, if_pos hge]
          · exfalso
            simp only [jsGet, if_neg hge, Option.map_none'] at heq
            exact Option.noConfusion heq
        · next heq =>
          have hnot : ¬ (1 : Int) ≤ keyIndex (filteredItems items p) k := by
            intro h1
            have h0 : (0 : Int) ≤ keyIndex (filteredItems items p) k - 1 := by omega
            have hnat : (keyIndex (filteredItems items p) k - 1).toNat <
                (filteredItems items p).length := by omega
            have hget := List.get?_eq_get hnat
            simp only [jsGet, if_pos h0, hget, Option.map_some'] at heq
            exact Option.noConfusion heq
          rw [if_neg hnot]
          have h0 : (0 : Int) ≤ ((filteredItems items p).length : Int) - 1 := by omega
          simp only [jsGet, if_pos h0]
          have htn : ((((filteredItems items p).length : Int)) - 1).toNat =
              (filteredItems items p).length - 1 := by omega
          rw [htn]

/-- C2 witness: the spec scenario list filtered by "open" gives `[a, b]`
with selection `a`; ArrowDown moves to `b`, another ArrowDown wraps back
to `a`, and ArrowUp from `a` wraps to the last element `b`, matching the
amended moveSelection on the found, absent and wrap cases. -/
theorem moveFocus_eq_moveSelectionSpec_witness :
    ([(⟨"a", "Open File"⟩ : CommandItem), ⟨"b", "Open Folder"⟩, ⟨"c", "Save"⟩].map
        CommandItem.key).Nodup ∧
    (moveFocus [⟨"a", "Open File"⟩, ⟨"b", "Open Folder"⟩, ⟨"c", "Save"⟩] "open"
        (some "a") "ArrowDown" =
      moveSelectionSpec
        (filteredItems [⟨"a", "Open File"⟩, ⟨"b", "Open Folder"⟩, ⟨"c", "Save"⟩] "open")
        (some "a") Direction.next ∧
     moveFocus [⟨"a", "Open File"⟩, ⟨"b", "Open Folder"⟩, ⟨"c", "Save"⟩] "open"
        (some "a") "ArrowUp" =
      moveSelectionSpec
        (filteredItems [⟨"a", "Open File"⟩, ⟨"b", "Open Folder"⟩, ⟨"c", "Save"⟩] "open")
        (some "a") Direction.previous ∧
     ((filteredItems [⟨"a", "Open File"⟩, ⟨"b", "Open Folder"⟩, ⟨"c", "Save"⟩]
          "open").length = 0 →
       moveFocus [⟨"a", "Open File"⟩, ⟨"b", "Open Folder"⟩, ⟨"c", "Save"⟩] "open"
          (some "a") "Escape" = some "a")) :=
  ⟨by decide,
    moveFocus_eq_moveSelectionSpec [⟨"a", "Open File"⟩, ⟨"b", "Open Folder"⟩, ⟨"c", "Save"⟩]
      "open" (some "a") "Escape" (by decide)⟩

end Pallette
